import Mathlib

/-! CleaningSchedule: the assignment engine of `script.js`.

A shallow embedding of the class `CleaningSchedule` of `src/script.js`:
tokenization of the two text fields, `validateInputs`, `shuffle`, the pairing
loop of `generateSchedule` and `parseFileContent`, followed by the properties
of the specification that are settled against this embedding.

Conventions of the embedding.

* A JavaScript string is the sequence of its UTF-16 code units, so that
  `s.length` is the length of the list, as in JavaScript.
* `throw new Error(msg)` becomes `Except.error e`, where `e` names the
  `throw` site and `e.message` is the text thrown there.
* `Math.floor(Math.random() * (i + 1))` is an integer of `[0, i]`; the draws
  of one run of `shuffle` are given by an oracle `draw`, where `draw i` is
  the index drawn in the iteration whose loop variable is `i`.
-/

namespace CleaningSchedule

/-! ## Strings -/

/-- A JavaScript string, as its sequence of UTF-16 code units. -/
abbrev JSString := List Nat

/-- The UTF-16 code units of one Unicode scalar value. -/
def utf16Units (c : Char) : List Nat :=
  if c.toNat < 0x10000 then [c.toNat]
  else [0xD800 + (c.toNat - 0x10000) / 0x400, 0xDC00 + (c.toNat - 0x10000) % 0x400]

/-- The JavaScript string written by a string literal. -/
def js (s : String) : JSString :=
  s.toList.flatMap utf16Units

/-- The text of `String(n)` for a non-negative integer `n`, as interpolated by
a template literal: its decimal digits. -/
def decimal (n : Nat) : JSString :=
  (Nat.toDigits 10 n).map Char.toNat

/-- The code units `String.prototype.trim` removes: ECMAScript `WhiteSpace`
(TAB, VT, FF, SP, NBSP, ZWNBSP and the category Zs) and `LineTerminator`
(LF, CR, LS, PS). -/
def isTrimSpace (u : Nat) : Bool :=
  u = 0x09 || u = 0x0A || u = 0x0B || u = 0x0C || u = 0x0D || u = 0x20 ||
  u = 0xA0 || u = 0x1680 || (0x2000 ≤ u && u ≤ 0x200A) ||
  u = 0x2028 || u = 0x2029 || u = 0x202F || u = 0x205F || u = 0x3000 || u = 0xFEFF

/-- The method `s.trim()`: leading and trailing white space removed. -/
def trim (s : JSString) : JSString :=
  ((s.dropWhile isTrimSpace).reverse.dropWhile isTrimSpace).reverse

/-- The method `s.split(sep)` for a separator `sep` of one code unit: the
pieces of `s` between the occurrences of `sep`, empty pieces included. -/
def split (sep : Nat) : JSString → List JSString
  | [] => [[]]
  | u :: us =>
    if u = sep then [] :: split sep us
    else
      match split sep us with
      | [] => [[u]]
      | w :: ws => (u :: w) :: ws

/-- Truthiness of a string, as tested by `filter(name => name)` and by
`!namesInput`: a string is truthy when it is not empty. -/
def truthy (s : JSString) : Bool :=
  !s.isEmpty

/-- The code unit of the space character, the separator of `split(' ')`. -/
def SPACE : Nat := 0x20

/-- The code unit of the line feed, the separator of `split('\n')`. -/
def LF : Nat := 0x0A

/-- Tokens of a text field in `generateSchedule` (lines 88 and 95, 89 and 96):
`value.trim()` and then `.split(' ').filter(name => name)`. -/
def tokenizeEntry (value : JSString) : List JSString :=
  (split SPACE (trim value)).filter truthy

/-- Tokens of one line of a file in `parseFileContent` (lines 66 and 67):
`line.trim().split(' ').filter(name => name)`. -/
def tokenizeLine (line : JSString) : List JSString :=
  (split SPACE (trim line)).filter truthy

/-! ## Errors -/

/-- The `throw` sites of `generateSchedule` and `validateInputs`. -/
inductive ScheduleError where
  /-- Line 92. -/
  | MissingInput
  /-- Line 101. -/
  | TooFewNames
  /-- Line 105, with the values of `this.jobs.length * 2` and of
  `this.names.length`. -/
  | InsufficientNames (required actual : Nat)
  /-- Line 139. -/
  | NameTooLong
  /-- Line 142. -/
  | JobTooLong
  /-- Line 147. -/
  | TooManyNames
  /-- Line 150. -/
  | TooManyJobs
  /-- Line 156. -/
  | InvalidNameChars
  /-- Line 159. -/
  | InvalidJobChars
  deriving DecidableEq, Repr

/-- The message of the `Error` thrown at each site. -/
def ScheduleError.message : ScheduleError → JSString
  | .MissingInput => js "Please enter both names and cleaning areas"
  | .TooFewNames => js "Please enter at least 2 names"
  | .InsufficientNames required actual =>
    js "Not enough names for the cleaning areas. Need " ++ decimal required ++
      js " names but only have " ++ decimal actual
  | .NameTooLong => js "Names too long (max 50 characters)"
  | .JobTooLong => js "Job names too long (max 50 characters)"
  | .TooManyNames => js "Too many names (max 100)"
  | .TooManyJobs => js "Too many jobs (max 50)"
  | .InvalidNameChars => js "Names contain invalid characters"
  | .InvalidJobChars => js "Job names contain invalid characters"

/-! ## Validation -/

/-- The code units of the character class of `/[<>"'&]/` (line 154):
`<`, `>`, `"`, `'` and `&`. -/
def dangerousChars : List Nat := [0x3C, 0x3E, 0x22, 0x27, 0x26]

/-- The call `dangerousChars.test(s)`: some code unit of `s` is in the class. -/
def dangerousTest (s : JSString) : Bool :=
  s.any fun u => dangerousChars.contains u

/-- The method `validateInputs` (lines 136 to 161). -/
def validateInputs (names jobs : List JSString) : Except ScheduleError Unit :=
  if names.any fun name => decide (name.length > 50) then .error .NameTooLong
  else if jobs.any fun job => decide (job.length > 50) then .error .JobTooLong
  else if names.length > 100 then .error .TooManyNames
  else if jobs.length > 50 then .error .TooManyJobs
  else if names.any fun name => dangerousTest name then .error .InvalidNameChars
  else if jobs.any fun job => dangerousTest job then .error .InvalidJobChars
  else .ok ()

/-! ## Shuffle -/

/-- The draws of one run of `shuffle`: `draw i` is the value of
`Math.floor(Math.random() * (i + 1))` in the iteration with loop variable `i`,
an integer of `[0, i]`. -/
abbrev Draw := (i : Nat) → Fin (i + 1)

/-- The destructuring assignment `[array[i], array[j]] = [array[j], array[i]]`
(line 166): both elements are read, then `array[i]` and `array[j]` are
written, in this order. In `shuffle` both indices are inside the array
(`j <= i < array.length`); for an index outside, which `shuffle` never
passes, the array is left as it is. -/
def swap {α : Type} (array : List α) (i j : Nat) : List α :=
  match array[i]?, array[j]? with
  | some x, some y => (array.set i y).set j x
  | _, _ => array

/-- The iterations of the loop of `shuffle` with loop variable `i`, `i - 1`,
..., `1`. -/
def shuffleLoop {α : Type} (draw : Draw) : Nat → List α → List α
  | 0, array => array
  | i + 1, array => shuffleLoop draw i (swap array (i + 1) (draw (i + 1)))

/-- The method `shuffle` (lines 163 to 168); the loop starts at
`array.length - 1` and runs while `i > 0`. -/
def shuffle {α : Type} (draw : Draw) (array : List α) : List α :=
  shuffleLoop draw (array.length - 1) array

/-- The draws of one run of `shuffle` on an array of length `n`: one index of
`[0, i]` for each `i` from `n - 1` down to `1`; the component `k` is the draw
of the iteration with loop variable `i = k + 1`. -/
abbrev Draws (n : Nat) := (k : Fin (n - 1)) → Fin (k.val + 2)

/-- The oracle that answers the iterations `n - 1`, ..., `1` from `d`. -/
def Draws.toDraw {n : Nat} (d : Draws n) : Draw := fun i =>
  if h : 1 ≤ i ∧ i < n then
    ⟨(d ⟨i - 1, by omega⟩).val, by have := (d ⟨i - 1, by omega⟩).isLt; simp only at this; omega⟩
  else ⟨0, Nat.succ_pos i⟩

/-! ## Pairing -/

/-- An element of `assignments` (lines 118 to 122). -/
structure Assignment where
  job : JSString
  person1 : JSString
  person2 : JSString
  deriving DecidableEq, Repr

/-- The arguments of `displayResults` (line 128): `shuffledNames`,
`assignments` and `namesCopy`. -/
structure ScheduleResult where
  shuffledOrder : List JSString
  assignments : List Assignment
  leftover : List JSString
  deriving DecidableEq, Repr

/-- The loop of lines 116 to 125 from job `jobs[i]` on, with the current values
of `assignments` and `namesCopy`. When `namesCopy.length >= 2` the first two
entries are paired with the job and removed by `splice(0, 2)`; otherwise the
iteration does nothing and the loop goes on. -/
def pairLoop : List JSString → List Assignment → List JSString →
    List Assignment × List JSString
  | [], assignments, namesCopy => (assignments, namesCopy)
  | job :: rest, assignments, namesCopy =>
    match namesCopy with
    | first :: second :: tail =>
      pairLoop rest (assignments ++ [⟨job, first, second⟩]) tail
    | _ => pairLoop rest assignments namesCopy

/-- Lines 108 to 128 of `generateSchedule`: the copy of `names` is shuffled,
a copy of the shuffled names is paired with the jobs. -/
def assign (names jobs : List JSString) (draw : Draw) : ScheduleResult :=
  let shuffledNames := shuffle draw names
  let paired := pairLoop jobs [] shuffledNames
  { shuffledOrder := shuffledNames, assignments := paired.1, leftover := paired.2 }

/-- The method `generateSchedule` (lines 85 to 134) on the values of the two
text fields; the result is what is passed to `displayResults`, or the error
whose message is passed to `showError`. -/
def generateSchedule (namesValue jobsValue : JSString) (draw : Draw) :
    Except ScheduleError ScheduleResult :=
  let namesInput := trim namesValue
  let jobsInput := trim jobsValue
  if !truthy namesInput || !truthy jobsInput then .error .MissingInput
  else
    let names := (split SPACE namesInput).filter truthy
    let jobs := (split SPACE jobsInput).filter truthy
    match validateInputs names jobs with
    | .error e => .error e
    | .ok _ =>
      if names.length < 2 then .error .TooFewNames
      else if jobs.length * 2 > names.length then
        .error (.InsufficientNames (jobs.length * 2) names.length)
      else .ok (assign names jobs draw)

/-- The fields `this.names` and `this.jobs`. -/
structure Lists where
  names : List JSString
  jobs : List JSString
  deriving DecidableEq, Repr

/-- The method `parseFileContent` (lines 63 to 78): the new values of
`this.names` and `this.jobs`, and the error reported by `showError`, if any. -/
def parseFileContent (content : JSString) (fields : Lists) :
    Lists × Option ScheduleError :=
  match (split LF content).filter fun line => truthy (trim line) with
  | line0 :: line1 :: _ =>
    let names := tokenizeLine line0
    let jobs := tokenizeLine line1
    match validateInputs names jobs with
    | .ok _ => (⟨names, jobs⟩, none)
    | .error e => (⟨[], []⟩, some e)
  | _ => (fields, none)

/-! ## Definitions used to state the properties -/

/-- The two names of every assignment, in order. -/
def persons (assignments : List Assignment) : List JSString :=
  assignments.flatMap fun a => [a.person1, a.person2]

/-- The maximal runs of code units of a text that are not separators, in
order: `runsFrom isSep cur rest` continues the run `cur` through `rest`. This
follows the words of the specification, not the code. -/
def runsFrom (isSep : Nat → Bool) : JSString → JSString → List JSString
  | cur, [] => if cur.isEmpty then [] else [cur]
  | cur, u :: us =>
    if isSep u then
      if cur.isEmpty then runsFrom isSep [] us else cur :: runsFrom isSep [] us
    else runsFrom isSep (cur ++ [u]) us

/-- The sequence of maximal runs of non-separator code units of a text, in the
words of the specification. -/
def maximalRuns (isSep : Nat → Bool) (text : JSString) : List JSString :=
  runsFrom isSep [] text

/-- The white space characters the specification names: space, tab, carriage
return and newline. -/
def specWhitespace (u : Nat) : Bool :=
  u = 0x20 || u = 0x09 || u = 0x0D || u = 0x0A

/-- The forbidden characters of the specification: `<`, `>`, `"`, `'`, `&`. -/
def Forbidden (u : Nat) : Prop :=
  u = 0x3C ∨ u = 0x3E ∨ u = 0x22 ∨ u = 0x27 ∨ u = 0x26

/-- The oracle that always draws index `0`. -/
def firstDraw : Draw := fun i => ⟨0, Nat.succ_pos i⟩

/-! ## The swap and the shuffle -/

section Shuffle

variable {α : Type}

theorem swap_length (array : List α) (i j : Nat) :
    (swap array i j).length = array.length := by
  unfold swap
  split <;> simp

/-- Putting `a` at the place of an occurrence of `y` and `y` in front is a
rearrangement of the list with `a` in front. -/
theorem cons_set_perm (a y : α) : ∀ (l : List α) (j : Nat), l[j]? = some y →
    (y :: l.set j a).Perm (a :: l)
  | [], j, h => by simp at h
  | b :: l, 0, h => by
    simp only [List.getElem?_cons_zero, Option.some.injEq] at h
    subst h
    simpa using List.Perm.swap a b l
  | b :: l, j + 1, h => by
    simp only [List.getElem?_cons_succ] at h
    have ih := cons_set_perm a y l j h
    simp only [List.set_cons_succ]
    exact (List.Perm.swap b y _).trans (((ih.cons b)).trans (List.Perm.swap a b l))

theorem set_set_perm_aux (x y : α) : ∀ (l : List α) (i j : Nat),
    l[i]? = some x → l[j]? = some y → ((l.set i y).set j x).Perm l
  | [], i, j, hi, _ => by simp at hi
  | b :: l, 0, 0, hi, hj => by
    simp only [List.getElem?_cons_zero, Option.some.injEq] at hi hj
    subst hi
    simp
  | b :: l, 0, j + 1, hi, hj => by
    simp only [List.getElem?_cons_zero, Option.some.injEq] at hi
    simp only [List.getElem?_cons_succ] at hj
    subst hi
    simpa using cons_set_perm b y l j hj
  | b :: l, i + 1, 0, hi, hj => by
    simp only [List.getElem?_cons_zero, Option.some.injEq] at hj
    simp only [List.getElem?_cons_succ] at hi
    subst hj
    simpa using cons_set_perm b x l i hi
  | b :: l, i + 1, j + 1, hi, hj => by
    simp only [List.getElem?_cons_succ] at hi hj
    simpa using set_set_perm_aux x y l i j hi hj

theorem swap_perm (array : List α) (i j : Nat) : (swap array i j).Perm array := by
  unfold swap
  split
  · next x y hx hy => exact set_set_perm_aux x y array i j hx hy
  · exact List.Perm.refl _

theorem shuffleLoop_perm (draw : Draw) : ∀ (i : Nat) (array : List α),
    (shuffleLoop draw i array).Perm array
  | 0, _ => List.Perm.refl _
  | i + 1, array =>
    (shuffleLoop_perm draw i _).trans (swap_perm array (i + 1) (draw (i + 1)))

theorem shuffle_perm_aux (draw : Draw) (array : List α) :
    (shuffle draw array).Perm array :=
  shuffleLoop_perm draw _ array

end Shuffle

/-! ## The shuffle as a map from draws to orderings -/

section Bijection

variable {α : Type}

theorem shuffleLoop_congr (d₁ d₂ : Draw) : ∀ (i : Nat) (array : List α),
    (∀ k, 1 ≤ k → k ≤ i → (d₁ k).val = (d₂ k).val) →
    shuffleLoop d₁ i array = shuffleLoop d₂ i array
  | 0, _, _ => rfl
  | i + 1, array, h => by
    simp only [shuffleLoop]
    rw [h (i + 1) (by omega) (by omega)]
    exact shuffleLoop_congr d₁ d₂ i _ fun k h1 h2 => h k h1 (by omega)

theorem swap_append (pre suf : List α) (i j : Nat) (hi : i < pre.length)
    (hj : j < pre.length) : swap (pre ++ suf) i j = swap pre i j ++ suf := by
  obtain ⟨x, hx⟩ : ∃ x, pre[i]? = some x := ⟨pre[i], by simp [hi]⟩
  obtain ⟨y, hy⟩ : ∃ y, pre[j]? = some y := ⟨pre[j], by simp [hj]⟩
  have hx' : (pre ++ suf)[i]? = some x := by rw [List.getElem?_append_left hi, hx]
  have hy' : (pre ++ suf)[j]? = some y := by rw [List.getElem?_append_left hj, hy]
  simp only [swap, hx, hy, hx', hy']
  rw [List.set_append_left _ _ hi, List.set_append_left _ _ (by simpa using hj)]

theorem shuffleLoop_append (draw : Draw) (suf : List α) : ∀ (i : Nat) (pre : List α),
    i < pre.length → shuffleLoop draw i (pre ++ suf) = shuffleLoop draw i pre ++ suf
  | 0, _, _ => rfl
  | i + 1, pre, h => by
    have hj : (draw (i + 1)).val < pre.length := by
      have := (draw (i + 1)).isLt
      omega
    simp only [shuffleLoop]
    rw [swap_append pre suf (i + 1) _ h hj]
    exact shuffleLoop_append draw suf i _ (by rw [swap_length]; omega)

theorem swap_last (array : List α) (i j : Nat) (x : α) (hlen : array.length = i + 1)
    (hx : array[j]? = some x) :
    ∃ T, T.length = i ∧ swap array i j = T ++ [x] := by
  obtain ⟨z, hz⟩ : ∃ z, array[i]? = some z := ⟨array[i], by simp [hlen]⟩
  have hS : (swap array i j)[i]? = some x := by
    simp only [swap, hz, hx]
    by_cases hji : j = i
    · subst hji
      rw [hx] at hz
      rw [List.getElem?_set_self (by simp [hlen])]
      exact hz.symm
    · rw [List.getElem?_set_ne hji, List.getElem?_set_self (by omega)]
  have hSlen : (swap array i j).length = i + 1 := by rw [swap_length, hlen]
  refine ⟨(swap array i j).take i, by simp [hSlen], ?_⟩
  obtain ⟨hlt, hget⟩ := List.getElem?_eq_some.mp hS
  have h1 := List.take_concat_get (swap array i j) i hlt
  rw [hget, List.concat_eq_append] at h1
  rw [h1, List.take_of_length_le (by omega)]

theorem shuffleLoop_succ (draw : Draw) (i : Nat) (array : List α)
    (hlen : array.length = i + 2) :
    ∃ T x, T.length = i + 1 ∧ array[(draw (i + 1)).val]? = some x ∧
      swap array (i + 1) (draw (i + 1)) = T ++ [x] ∧
      shuffleLoop draw (i + 1) array = shuffleLoop draw i T ++ [x] := by
  have hj : (draw (i + 1)).val < array.length := by
    have := (draw (i + 1)).isLt
    omega
  have hx : array[(draw (i + 1)).val]? = some array[(draw (i + 1)).val] := by simp [hj]
  obtain ⟨T, hT, hsw⟩ := swap_last array (i + 1) (draw (i + 1)) _ hlen hx
  refine ⟨T, _, hT, hx, hsw, ?_⟩
  simp only [shuffleLoop]
  rw [hsw, shuffleLoop_append draw _ i T (by omega)]

theorem shuffleLoop_injective : ∀ (i : Nat) (array : List α),
    array.length = i + 1 → array.Nodup → ∀ d₁ d₂ : Draw,
    shuffleLoop d₁ i array = shuffleLoop d₂ i array →
    ∀ k, 1 ≤ k → k ≤ i → (d₁ k).val = (d₂ k).val
  | 0, _, _, _, _, _, _, k, h1, h2 => by omega
  | i + 1, array, hlen, hnd, d₁, d₂, heq, k, h1, h2 => by
    obtain ⟨T₁, x₁, hT₁, hx₁, hs₁, hl₁⟩ := shuffleLoop_succ d₁ i array hlen
    obtain ⟨T₂, x₂, hT₂, hx₂, hs₂, hl₂⟩ := shuffleLoop_succ d₂ i array hlen
    rw [hl₁, hl₂] at heq
    obtain ⟨hpre, hlast⟩ := List.append_inj' heq rfl
    have hxx : x₁ = x₂ := by simpa using hlast
    subst hxx
    have hj : (d₁ (i + 1)).val = (d₂ (i + 1)).val := by
      have hlt : (d₁ (i + 1)).val < array.length := by
        have := (d₁ (i + 1)).isLt
        omega
      exact List.getElem?_inj hlt hnd (hx₁.trans hx₂.symm)
    have hTT : T₁ = T₂ := by
      rw [hj, hs₂] at hs₁
      exact ((List.append_inj' hs₁ rfl).1).symm
    subst hTT
    have hTnd : T₁.Nodup := by
      have hp : (T₁ ++ [x₁]).Perm array := hs₁ ▸ swap_perm array _ _
      exact (hp.nodup_iff.mpr hnd).of_append_left
    by_cases hk : k = i + 1
    · subst hk
      exact hj
    · exact shuffleLoop_injective i T₁ hT₁ hTnd d₁ d₂ hpre k h1 (by omega)

theorem shuffleLoop_surjective : ∀ (i : Nat) (array l : List α),
    array.length = i + 1 → l.Perm array → ∃ d : Draw, shuffleLoop d i array = l
  | 0, array, l, hlen, hp => by
    obtain ⟨a, rfl⟩ := List.length_eq_one.mp hlen
    exact ⟨fun i => ⟨0, Nat.succ_pos i⟩, (List.perm_singleton.mp hp).symm⟩
  | i + 1, array, l, hlen, hp => by
    have hl : l.length = i + 2 := by rw [hp.length_eq, hlen]
    rcases List.eq_nil_or_concat l with rfl | ⟨l', x, rfl⟩
    · simp at hl
    rw [List.concat_eq_append] at hp hl ⊢
    have hxa : x ∈ array := hp.subset (by simp)
    obtain ⟨j, hj⟩ := List.mem_iff_getElem?.mp hxa
    have hjlt : j < i + 1 + 1 := by
      obtain ⟨h, _⟩ := List.getElem?_eq_some.mp hj
      omega
    obtain ⟨T, hT, hsw⟩ := swap_last array (i + 1) j x hlen hj
    have hTl : l'.Perm T := by
      have h1 : (T ++ [x]).Perm array := hsw ▸ swap_perm array _ _
      exact (List.perm_append_right_iff [x]).mp (hp.trans h1.symm)
    obtain ⟨d', hd'⟩ := shuffleLoop_surjective i T l' hT hTl
    refine ⟨Function.update d' (i + 1) ⟨j, hjlt⟩, ?_⟩
    simp only [shuffleLoop, Function.update_same]
    rw [hsw, shuffleLoop_append _ _ i T (by omega), ← hd']
    congr 1
    apply shuffleLoop_congr
    intro k _ hk
    rw [Function.update_noteq (by omega)]

theorem Draw.val_congr (d : Draw) {a b : Nat} (h : a = b) : (d a).val = (d b).val := by
  subst h
  rfl

theorem Draws.toDraw_val {n : Nat} (d : Draws n) (k : Nat) (h1 : 1 ≤ k) (h2 : k < n) :
    (d.toDraw k).val = (d ⟨k - 1, by omega⟩).val := by
  simp only [Draws.toDraw, h1, h2, and_self, dif_pos]

theorem shuffle_draws_injective (array : List α) (hnd : array.Nodup)
    (d₁ d₂ : Draws array.length)
    (hs : shuffle d₁.toDraw array = shuffle d₂.toDraw array) : d₁ = d₂ := by
  funext c
  have hc := c.isLt
  have hlen : array.length = array.length - 1 + 1 := by omega
  have hval := shuffleLoop_injective (array.length - 1) array hlen hnd
    d₁.toDraw d₂.toDraw hs (c.val + 1) (Nat.le_add_left 1 c.val) (Nat.succ_le_of_lt hc)
  have hlt : c.val + 1 < array.length := by omega
  rw [Draws.toDraw_val d₁ (c.val + 1) (Nat.le_add_left 1 c.val) hlt,
    Draws.toDraw_val d₂ (c.val + 1) (Nat.le_add_left 1 c.val) hlt] at hval
  exact Fin.ext hval

theorem shuffle_draws_surjective (array l : List α) (hl : l.Perm array) :
    ∃ d : Draws array.length, shuffle d.toDraw array = l := by
  rcases Nat.eq_zero_or_pos array.length with h0 | hpos
  · have ha : array = [] := List.length_eq_zero.mp h0
    subst ha
    refine ⟨fun c => absurd c.isLt (by simp), ?_⟩
    simp only [shuffle, shuffleLoop]
    exact (List.perm_nil.mp hl).symm
  · have hlen : array.length = array.length - 1 + 1 := by omega
    obtain ⟨d, hd⟩ := shuffleLoop_surjective (array.length - 1) array l hlen hl
    refine ⟨fun c => ⟨(d (c.val + 1)).val, (d (c.val + 1)).isLt⟩, ?_⟩
    simp only [shuffle]
    rw [← hd]
    apply shuffleLoop_congr
    intro k h1 h2
    have hk : k < array.length := by omega
    rw [Draws.toDraw_val _ k h1 hk]
    have hkk : k - 1 + 1 = k := by omega
    exact Draw.val_congr d hkk

theorem prod_range_add_two : ∀ m : Nat, (∏ x ∈ Finset.range m, (x + 2)) = (m + 1).factorial
  | 0 => by simp
  | m + 1 => by
    rw [Finset.prod_range_succ, prod_range_add_two m, Nat.factorial_succ (m + 1)]
    ring

theorem card_draws (n : Nat) : Fintype.card (Draws n) = n.factorial := by
  rw [Fintype.card_pi]
  simp only [Fintype.card_fin]
  rw [Fin.prod_univ_eq_prod_range (fun x => x + 2) (n - 1), prod_range_add_two]
  cases n with
  | zero => rfl
  | succ m => simp

end Bijection

/-! ## The pairing loop -/

theorem pairLoop_acc : ∀ (jobs : List JSString) (acc : List Assignment)
    (pool : List JSString),
    pairLoop jobs acc pool =
      (acc ++ (pairLoop jobs [] pool).1, (pairLoop jobs [] pool).2)
  | [], acc, pool => by simp [pairLoop]
  | job :: rest, acc, [] => by
    simpa [pairLoop] using pairLoop_acc rest acc []
  | job :: rest, acc, [a] => by
    simpa [pairLoop] using pairLoop_acc rest acc [a]
  | job :: rest, acc, a :: b :: tl => by
    simp only [pairLoop, List.nil_append]
    rw [pairLoop_acc rest (acc ++ [Assignment.mk job a b]) tl,
      pairLoop_acc rest [Assignment.mk job a b] tl]
    simp

theorem pairLoop_cons (job : JSString) (rest : List JSString) (a b : JSString)
    (tl : List JSString) :
    pairLoop (job :: rest) [] (a :: b :: tl) =
      (⟨job, a, b⟩ :: (pairLoop rest [] tl).1, (pairLoop rest [] tl).2) := by
  simp only [pairLoop, List.nil_append]
  rw [pairLoop_acc]
  simp

theorem pairLoop_short (jobs : List JSString) (pool : List JSString)
    (h : pool.length < 2) : pairLoop jobs [] pool = ([], pool) := by
  induction jobs with
  | nil => simp [pairLoop]
  | cons job rest ih =>
    match pool, h with
    | [], _ => simpa [pairLoop] using ih
    | [a], _ => simpa [pairLoop] using ih

theorem pairLoop_persons : ∀ (jobs pool : List JSString),
    persons (pairLoop jobs [] pool).1 ++ (pairLoop jobs [] pool).2 = pool
  | [], pool => by simp [pairLoop, persons]
  | job :: rest, [] => by simp [pairLoop_short, persons]
  | job :: rest, [a] => by simp [pairLoop_short, persons]
  | job :: rest, a :: b :: tl => by
    have ih := pairLoop_persons rest tl
    rw [pairLoop_cons]
    simp only [persons, List.flatMap_cons, List.cons_append, List.nil_append] at ih ⊢
    rw [ih]

theorem pairLoop_enough : ∀ (jobs pool : List JSString),
    jobs.length * 2 ≤ pool.length →
    (pairLoop jobs [] pool).1.length = jobs.length ∧
      (pairLoop jobs [] pool).2 = pool.drop (2 * jobs.length)
  | [], pool, _ => by simp [pairLoop]
  | job :: rest, [], h => by simp at h
  | job :: rest, [a], h => by simp at h; omega
  | job :: rest, a :: b :: tl, h => by
    have h' : rest.length * 2 ≤ tl.length := by
      simp only [List.length_cons] at h
      omega
    obtain ⟨h1, h2⟩ := pairLoop_enough rest tl h'
    rw [pairLoop_cons]
    refine ⟨by simp [h1], ?_⟩
    simp only [h2, List.length_cons]
    rw [show 2 * (rest.length + 1) = 2 * rest.length + 1 + 1 by omega]
    simp

theorem pairLoop_index : ∀ (jobs pool : List JSString),
    jobs.length * 2 ≤ pool.length → ∀ (i : Nat) (hi : i < jobs.length),
    ∃ first second, pool[2 * i]? = some first ∧ pool[2 * i + 1]? = some second ∧
      (pairLoop jobs [] pool).1[i]? = some ⟨jobs[i], first, second⟩
  | [], pool, _, i, hi => by simp at hi
  | job :: rest, [], h, _, _ => by simp at h
  | job :: rest, [a], h, _, _ => by simp at h; omega
  | job :: rest, a :: b :: tl, h, i, hi => by
    have h' : rest.length * 2 ≤ tl.length := by
      simp only [List.length_cons] at h
      omega
    rw [pairLoop_cons]
    cases i with
    | zero => exact ⟨a, b, by simp⟩
    | succ k =>
      have hk : k < rest.length := by simpa using hi
      obtain ⟨f, s, hf, hs, hp⟩ := pairLoop_index rest tl h' k hk
      refine ⟨f, s, ?_, ?_, ?_⟩
      · rw [show 2 * (k + 1) = 2 * k + 1 + 1 by omega]
        simpa using hf
      · rw [show 2 * (k + 1) + 1 = 2 * k + 1 + 1 + 1 by omega]
        simpa using hs
      · simpa using hp

theorem pairLoop_distinct : ∀ (jobs pool : List JSString), pool.Nodup →
    ∀ a ∈ (pairLoop jobs [] pool).1, a.person1 ≠ a.person2
  | [], pool, _, a, ha => by simp [pairLoop] at ha
  | job :: rest, [], _, a, ha => by simp [pairLoop_short] at ha
  | job :: rest, [x], _, a, ha => by simp [pairLoop_short] at ha
  | job :: rest, x :: y :: tl, hnd, a, ha => by
    rw [pairLoop_cons] at ha
    simp only [List.mem_cons] at ha
    rcases ha with rfl | ha
    · intro hxy
      simp only at hxy
      subst hxy
      simp at hnd
    · exact pairLoop_distinct rest tl (hnd.of_cons.of_cons) a ha

/-! ## Tokenization -/

theorem split_ne_nil (sep : Nat) : ∀ s : JSString, ∃ w ws, split sep s = w :: ws
  | [] => ⟨[], [], rfl⟩
  | u :: us => by
    obtain ⟨w, ws, h⟩ := split_ne_nil sep us
    by_cases hu : u = sep
    · exact ⟨[], split sep us, by simp [split, hu]⟩
    · exact ⟨u :: w, ws, by simp [split, hu, h]⟩

theorem split_no_sep (sep : Nat) : ∀ s : JSString, ∀ w ∈ split sep s, sep ∉ w
  | [], w, hw => by
    simp only [split, List.mem_singleton] at hw
    simp [hw]
  | u :: us, w, hw => by
    have ih := split_no_sep sep us
    obtain ⟨v, vs, h⟩ := split_ne_nil sep us
    by_cases hu : u = sep
    · simp only [split, hu, if_true, List.mem_cons] at hw
      rcases hw with rfl | hw
      · simp
      · exact ih w hw
    · simp only [split, hu, if_false, h, List.mem_cons] at hw
      rw [h] at ih
      rcases hw with rfl | hw
      · have hv := ih v (by simp)
        simp only [List.mem_cons, not_or]
        exact ⟨fun e => hu e.symm, hv⟩
      · exact ih w (by simp [hw])

theorem runsFrom_split (sep : Nat) : ∀ (s cur w : JSString) (ws : List JSString),
    split sep s = w :: ws →
    runsFrom (fun u => u == sep) cur s = ((cur ++ w) :: ws).filter truthy
  | [], cur, w, ws, h => by
    simp only [split, List.cons.injEq] at h
    obtain ⟨rfl, rfl⟩ := h
    cases cur <;> simp [runsFrom, truthy]
  | u :: us, cur, w, ws, h => by
    obtain ⟨v, vs, hv⟩ := split_ne_nil sep us
    have ih := runsFrom_split sep us
    by_cases hu : u = sep
    · simp only [split, hu, if_true, List.cons.injEq] at h
      obtain ⟨rfl, rfl⟩ := h
      have h0 := ih [] v vs hv
      simp only [List.nil_append] at h0
      rw [← hv] at h0
      cases cur <;> simp [runsFrom, hu, h0, truthy]
    · simp only [split, hu, if_false, hv, List.cons.injEq] at h
      obtain ⟨rfl, rfl⟩ := h
      have h1 := ih (cur ++ [u]) v vs hv
      simp only [runsFrom, beq_iff_eq, hu, if_false]
      simpa using h1

theorem filter_split_eq_runs (sep : Nat) (s : JSString) :
    (split sep s).filter truthy = maximalRuns (fun u => u == sep) s := by
  obtain ⟨w, ws, h⟩ := split_ne_nil sep s
  have := runsFrom_split sep s [] w ws h
  simp only [List.nil_append] at this
  rw [maximalRuns, this, h]

theorem split_flatten (sep : Nat) : ∀ s : JSString,
    (split sep s).flatten = s.filter fun u => !(u == sep)
  | [] => by simp [split]
  | u :: us => by
    have ih := split_flatten sep us
    obtain ⟨v, vs, hv⟩ := split_ne_nil sep us
    by_cases hu : u = sep
    · simp [split, hu, ih]
    · simp only [split, hu, if_false, hv]
      rw [hv] at ih
      simp only [List.flatten_cons] at ih
      simp [hu, ← ih]

theorem filter_truthy_flatten : ∀ l : List JSString,
    (l.filter truthy).flatten = l.flatten
  | [] => rfl
  | [] :: l => by simpa [truthy] using filter_truthy_flatten l
  | (a :: w) :: l => by simpa [truthy] using filter_truthy_flatten l

theorem tokenizeEntry_ne_nil {value : JSString} (h : tokenizeEntry value ≠ []) :
    truthy (trim value) = true := by
  cases ht : trim value with
  | nil => simp [tokenizeEntry, ht, split, truthy] at h
  | cons a l => simp [truthy]

/-! ## `generateSchedule` after tokenization -/

theorem generateSchedule_tokens (namesValue jobsValue : JSString) (draw : Draw)
    (hn : tokenizeEntry namesValue ≠ []) (hj : tokenizeEntry jobsValue ≠ []) :
    generateSchedule namesValue jobsValue draw =
      match validateInputs (tokenizeEntry namesValue) (tokenizeEntry jobsValue) with
      | .error e => .error e
      | .ok _ =>
        if (tokenizeEntry namesValue).length < 2 then .error .TooFewNames
        else if (tokenizeEntry jobsValue).length * 2 > (tokenizeEntry namesValue).length then
          .error (.InsufficientNames ((tokenizeEntry jobsValue).length * 2)
            (tokenizeEntry namesValue).length)
        else .ok (assign (tokenizeEntry namesValue) (tokenizeEntry jobsValue) draw) := by
  have h1 := tokenizeEntry_ne_nil hn
  have h2 := tokenizeEntry_ne_nil hj
  simp only [generateSchedule, h1, h2, Bool.not_true, Bool.or_self, Bool.false_eq_true,
    if_false]
  rfl

/-! ## Acceptance -/

theorem generateSchedule_ok {namesValue jobsValue : JSString} {draw : Draw}
    {r : ScheduleResult} (h : generateSchedule namesValue jobsValue draw = .ok r) :
    r = assign (tokenizeEntry namesValue) (tokenizeEntry jobsValue) draw ∧
      validateInputs (tokenizeEntry namesValue) (tokenizeEntry jobsValue) = .ok () ∧
      2 ≤ (tokenizeEntry namesValue).length ∧
      (tokenizeEntry jobsValue).length * 2 ≤ (tokenizeEntry namesValue).length := by
  have key : generateSchedule namesValue jobsValue draw =
      if (!truthy (trim namesValue) || !truthy (trim jobsValue)) = true then
        .error .MissingInput
      else
        match validateInputs (tokenizeEntry namesValue) (tokenizeEntry jobsValue) with
        | .error e => .error e
        | .ok _ =>
          if (tokenizeEntry namesValue).length < 2 then .error .TooFewNames
          else if (tokenizeEntry jobsValue).length * 2 > (tokenizeEntry namesValue).length then
            .error (.InsufficientNames ((tokenizeEntry jobsValue).length * 2)
              (tokenizeEntry namesValue).length)
          else .ok (assign (tokenizeEntry namesValue) (tokenizeEntry jobsValue) draw) := rfl
  rw [key] at h
  by_cases h0 : (!truthy (trim namesValue) || !truthy (trim jobsValue)) = true
  · rw [if_pos h0] at h
    cases h
  · rw [if_neg h0] at h
    cases hv : validateInputs (tokenizeEntry namesValue) (tokenizeEntry jobsValue) with
    | error e =>
      rw [hv] at h
      cases h
    | ok u =>
      rw [hv] at h
      by_cases h2 : (tokenizeEntry namesValue).length < 2
      · simp only [if_pos h2] at h
        cases h
      · by_cases h3 : (tokenizeEntry jobsValue).length * 2 > (tokenizeEntry namesValue).length
        · simp only [if_neg h2, if_pos h3] at h
          cases h
        · simp only [if_neg h2, if_neg h3, Except.ok.injEq] at h
          exact ⟨h.symm, rfl, by omega, by omega⟩

theorem dangerousTest_iff (s : JSString) : dangerousTest s = true ↔ ∃ u ∈ s, Forbidden u := by
  simp [dangerousTest, dangerousChars, Forbidden]

/-! ## The properties of the specification -/

/-- C1. When `jobs.length * 2 <= names.length`, the pairing step of
`generateSchedule` produces, for every outcome of the draws, exactly
`jobs.length` assignments and a leftover list of length
`names.length - 2 * jobs.length`; the leftover list is empty when
`jobs.length * 2 = names.length`. -/
theorem assign_counts (names jobs : List JSString) (draw : Draw)
    (h : jobs.length * 2 ≤ names.length) :
    (assign names jobs draw).assignments.length = jobs.length ∧
      (assign names jobs draw).leftover.length = names.length - 2 * jobs.length ∧
      (jobs.length * 2 = names.length → (assign names jobs draw).leftover = []) := by
  have hlen : (shuffle draw names).length = names.length :=
    (shuffle_perm_aux draw names).length_eq
  obtain ⟨h1, h2⟩ := pairLoop_enough jobs (shuffle draw names) (by omega)
  refine ⟨h1, ?_, ?_⟩
  · simp only [assign, h2, List.length_drop, hlen]
  · intro he
    simp only [assign, h2]
    exact List.drop_of_length_le (by omega)

/-- Witness of C1: two names and one job give one assignment and no leftover. -/
theorem assign_counts_witness :
    [js "kitchen"].length * 2 ≤ [js "Ann", js "Ben"].length ∧
      (assign [js "Ann", js "Ben"] [js "kitchen"] firstDraw).assignments.length = 1 ∧
      (assign [js "Ann", js "Ben"] [js "kitchen"] firstDraw).leftover.length = 0 ∧
      ([js "kitchen"].length * 2 = [js "Ann", js "Ben"].length →
        (assign [js "Ann", js "Ben"] [js "kitchen"] firstDraw).leftover = []) :=
  ⟨by decide, assign_counts [js "Ann", js "Ben"] [js "kitchen"] firstDraw (by decide)⟩

/-- C2. For every name list, job list and outcome of the draws, `person1` and
`person2` of all assignments together with the leftover list are a
rearrangement of the input names: each occurrence of a name appears exactly
once, none is lost and none is duplicated. -/
theorem assign_uses_every_name_once (names jobs : List JSString) (draw : Draw) :
    (persons (assign names jobs draw).assignments ++
        (assign names jobs draw).leftover).Perm names ∧
      ((persons (assign names jobs draw).assignments ++
        (assign names jobs draw).leftover : List JSString) : Multiset JSString) =
        (names : Multiset JSString) := by
  have hp : (persons (assign names jobs draw).assignments ++
      (assign names jobs draw).leftover).Perm names := by
    simp only [assign]
    rw [pairLoop_persons]
    exact shuffle_perm_aux draw names
  exact ⟨hp, Quotient.sound hp⟩

/-- C3. For every array and every sequence of draws `j` with `0 <= j <= i`,
`shuffle` returns a permutation of its input: the same length and the same
multiset of elements; in particular sorting the shuffled names and sorting
the names give the same list. -/
theorem shuffle_is_permutation {α : Type} (draw : Draw) (array : List α) :
    (shuffle draw array).length = array.length ∧
      (shuffle draw array).Perm array ∧
      ((shuffle draw array : List α) : Multiset α) = (array : Multiset α) ∧
      ∀ names : List JSString,
        (shuffle draw names).insertionSort (· ≤ ·) = names.insertionSort (· ≤ ·) := by
  have hp := shuffle_perm_aux draw array
  refine ⟨hp.length_eq, hp, Quotient.sound hp, fun names => ?_⟩
  have hq := shuffle_perm_aux draw names
  apply List.eq_of_perm_of_sorted (r := (· ≤ ·))
  · exact (List.perm_insertionSort _ _).trans (hq.trans (List.perm_insertionSort _ _).symm)
  · exact List.sorted_insertionSort _ _
  · exact List.sorted_insertionSort _ _

/-- C4. `validateInputs` reports exactly the error of the first failing check
in the order `NameTooLong` (some name longer than 50), `JobTooLong` (some job
longer than 50), `TooManyNames` (more than 100 names), `TooManyJobs` (more than
50 jobs), `InvalidNameChars` (some name with a forbidden character),
`InvalidJobChars` (some job with one); it succeeds if and only if none of the
six checks fails and reports no other error; 101 names that all contain a
forbidden character give `TooManyNames`. -/
theorem validateInputs_first_failing_check (names jobs : List JSString) :
    (validateInputs names jobs = .error .NameTooLong ↔ ∃ name ∈ names, 50 < name.length) ∧
    (validateInputs names jobs = .error .JobTooLong ↔
      (∀ name ∈ names, name.length ≤ 50) ∧ ∃ job ∈ jobs, 50 < job.length) ∧
    (validateInputs names jobs = .error .TooManyNames ↔
      (∀ name ∈ names, name.length ≤ 50) ∧ (∀ job ∈ jobs, job.length ≤ 50) ∧
        100 < names.length) ∧
    (validateInputs names jobs = .error .TooManyJobs ↔
      (∀ name ∈ names, name.length ≤ 50) ∧ (∀ job ∈ jobs, job.length ≤ 50) ∧
        names.length ≤ 100 ∧ 50 < jobs.length) ∧
    (validateInputs names jobs = .error .InvalidNameChars ↔
      (∀ name ∈ names, name.length ≤ 50) ∧ (∀ job ∈ jobs, job.length ≤ 50) ∧
        names.length ≤ 100 ∧ jobs.length ≤ 50 ∧ ∃ name ∈ names, ∃ u ∈ name, Forbidden u) ∧
    (validateInputs names jobs = .error .InvalidJobChars ↔
      (∀ name ∈ names, name.length ≤ 50) ∧ (∀ job ∈ jobs, job.length ≤ 50) ∧
        names.length ≤ 100 ∧ jobs.length ≤ 50 ∧
        (∀ name ∈ names, ∀ u ∈ name, ¬Forbidden u) ∧ ∃ job ∈ jobs, ∃ u ∈ job, Forbidden u) ∧
    (validateInputs names jobs = .ok () ↔
      (∀ name ∈ names, name.length ≤ 50) ∧ (∀ job ∈ jobs, job.length ≤ 50) ∧
        names.length ≤ 100 ∧ jobs.length ≤ 50 ∧
        (∀ name ∈ names, ∀ u ∈ name, ¬Forbidden u) ∧ ∀ job ∈ jobs, ∀ u ∈ job, ¬Forbidden u) ∧
    (∀ e, validateInputs names jobs = .error e →
      e = .NameTooLong ∨ e = .JobTooLong ∨ e = .TooManyNames ∨ e = .TooManyJobs ∨
        e = .InvalidNameChars ∨ e = .InvalidJobChars) ∧
    validateInputs (List.replicate 101 (js "<")) [js "kitchen"] = .error .TooManyNames := by
  have e1 : (names.any fun name => decide (name.length > 50)) = true ↔
      ∃ name ∈ names, 50 < name.length := by simp
  have e2 : (jobs.any fun job => decide (job.length > 50)) = true ↔
      ∃ job ∈ jobs, 50 < job.length := by simp
  have e5 : (names.any fun name => dangerousTest name) = true ↔
      ∃ name ∈ names, ∃ u ∈ name, Forbidden u := by simp [dangerousTest_iff]
  have e6 : (jobs.any fun job => dangerousTest job) = true ↔
      ∃ job ∈ jobs, ∃ u ∈ job, Forbidden u := by simp [dangerousTest_iff]
  have n1 : (∀ name ∈ names, name.length ≤ 50) ↔ ¬∃ name ∈ names, 50 < name.length := by
    simp
  have n2 : (∀ job ∈ jobs, job.length ≤ 50) ↔ ¬∃ job ∈ jobs, 50 < job.length := by simp
  have n5 : (∀ name ∈ names, ∀ u ∈ name, ¬Forbidden u) ↔
      ¬∃ name ∈ names, ∃ u ∈ name, Forbidden u := by simp
  have n6 : (∀ job ∈ jobs, ∀ u ∈ job, ¬Forbidden u) ↔
      ¬∃ job ∈ jobs, ∃ u ∈ job, Forbidden u := by simp
  rw [n1, n2, n5, n6]
  refine ⟨?_, ?_, ?_, ?_, ?_, ?_, ?_, ?_, by rfl⟩ <;>
  · unfold validateInputs
    try simp only [← e1, ← e2, ← e5, ← e6]
    generalize (names.any fun name => decide (name.length > 50)) = b1
    generalize (jobs.any fun job => decide (job.length > 50)) = b2
    generalize (names.any fun name => dangerousTest name) = b5
    generalize (jobs.any fun job => dangerousTest job) = b6
    generalize names.length = n
    generalize jobs.length = m
    clear e1 e2 e5 e6 n1 n2 n5 n6
    by_cases h3 : n > 100 <;> by_cases h4 : m > 50 <;>
      cases b1 <;> cases b2 <;> cases b5 <;> cases b6 <;> simp [h3, h4] <;> omega

/-- C5. For non-empty token lists of names and of jobs, when `validateInputs`
fails with an error then `generateSchedule` reports this very error and
produces no assignment, whatever the number of names and of jobs: the error of
the validator comes before `TooFewNames` and `InsufficientNames`. -/
theorem generateSchedule_reports_validation_error (namesValue jobsValue : JSString)
    (draw : Draw) (e : ScheduleError)
    (hn : tokenizeEntry namesValue ≠ []) (hj : tokenizeEntry jobsValue ≠ [])
    (hv : validateInputs (tokenizeEntry namesValue) (tokenizeEntry jobsValue) = .error e) :
    generateSchedule namesValue jobsValue draw = .error e := by
  rw [generateSchedule_tokens namesValue jobsValue draw hn hj, hv]

/-- Witness of C5: the name `<script>` with the job `kitchen` is rejected with
`InvalidNameChars`, although there are fewer than two names. -/
theorem generateSchedule_reports_validation_error_witness :
    (tokenizeEntry (js "<script>") = [js "<script>"] ∧
      tokenizeEntry (js "kitchen") = [js "kitchen"] ∧
      validateInputs [js "<script>"] [js "kitchen"] = .error .InvalidNameChars) ∧
      generateSchedule (js "<script>") (js "kitchen") firstDraw =
        .error .InvalidNameChars :=
  ⟨⟨by decide, by decide, by rfl⟩,
    generateSchedule_reports_validation_error (js "<script>") (js "kitchen") firstDraw
      .InvalidNameChars (by decide) (by decide) (by rfl)⟩

/-- C6. When the tokens pass `validateInputs`, there are at least two names and
`jobs.length * 2 > names.length`, `generateSchedule` fails with
`InsufficientNames` and the message contains `Need R names but only have A`,
with `R` the decimal digits of `jobs.length * 2` and `A` those of
`names.length`. -/
theorem generateSchedule_insufficient_names (namesValue jobsValue : JSString)
    (draw : Draw)
    (hv : validateInputs (tokenizeEntry namesValue) (tokenizeEntry jobsValue) = .ok ())
    (h2 : 2 ≤ (tokenizeEntry namesValue).length)
    (h : (tokenizeEntry namesValue).length < (tokenizeEntry jobsValue).length * 2) :
    generateSchedule namesValue jobsValue draw =
        .error (.InsufficientNames ((tokenizeEntry jobsValue).length * 2)
          (tokenizeEntry namesValue).length) ∧
      (js "Need " ++ decimal ((tokenizeEntry jobsValue).length * 2) ++
          js " names but only have " ++ decimal (tokenizeEntry namesValue).length) <:+:
        (ScheduleError.InsufficientNames ((tokenizeEntry jobsValue).length * 2)
          (tokenizeEntry namesValue).length).message := by
  have hn : tokenizeEntry namesValue ≠ [] := by
    intro h0
    rw [h0] at h2
    simp at h2
  have hj : tokenizeEntry jobsValue ≠ [] := by
    intro h0
    rw [h0] at h
    simp at h
  refine ⟨?_, ?_⟩
  · rw [generateSchedule_tokens namesValue jobsValue draw hn hj, hv]
    simp only
    rw [if_neg (by omega), if_pos (by omega)]
  · refine ⟨js "Not enough names for the cleaning areas. ", [], ?_⟩
    have hsplit : js "Not enough names for the cleaning areas. Need " =
        js "Not enough names for the cleaning areas. " ++ js "Need " := by decide
    simp only [ScheduleError.message, hsplit, List.append_assoc, List.append_nil]

/-- Witness of C6: three names and two jobs give the message
`Need 4 names but only have 3`. -/
theorem generateSchedule_insufficient_names_witness :
    (validateInputs (tokenizeEntry (js "Ann Ben Cid")) (tokenizeEntry (js "kitchen bath")) =
        .ok () ∧
      (tokenizeEntry (js "Ann Ben Cid")).length = 3 ∧
      (tokenizeEntry (js "kitchen bath")).length = 2) ∧
      generateSchedule (js "Ann Ben Cid") (js "kitchen bath") firstDraw =
        .error (.InsufficientNames 4 3) ∧
      js "Need 4 names but only have 3" <:+: (ScheduleError.InsufficientNames 4 3).message :=
  ⟨⟨by rfl, by decide, by decide⟩,
    generateSchedule_insufficient_names (js "Ann Ben Cid") (js "kitchen bath") firstDraw
      (by rfl) (by decide) (by decide)⟩

/-- C7, as stated, fails: the names `Bob Bob` with the job `Kitchen` pass
validation, are accepted, and the only assignment pairs `Bob` with `Bob`. -/
theorem duplicate_names_are_paired :
    validateInputs (tokenizeEntry (js "Bob Bob")) (tokenizeEntry (js "Kitchen")) = .ok () ∧
      generateSchedule (js "Bob Bob") (js "Kitchen") firstDraw =
        .ok ⟨[js "Bob", js "Bob"], [⟨js "Kitchen", js "Bob", js "Bob"⟩], []⟩ ∧
      ∃ r, generateSchedule (js "Bob Bob") (js "Kitchen") firstDraw = .ok r ∧
        ∃ a ∈ r.assignments, a.person1 = a.person2 :=
  ⟨by rfl, by rfl, _, rfl, ⟨js "Kitchen", js "Bob", js "Bob"⟩, by decide, rfl⟩

/-- C7, amended. When `generateSchedule` accepts its input and the names are
pairwise distinct, then for every outcome of the draws `person1` differs from
`person2` in every assignment produced. -/
theorem distinct_names_distinct_pair (namesValue jobsValue : JSString) (draw : Draw)
    (r : ScheduleResult) (hok : generateSchedule namesValue jobsValue draw = .ok r)
    (hnd : (tokenizeEntry namesValue).Nodup) :
    ∀ a ∈ r.assignments, a.person1 ≠ a.person2 := by
  obtain ⟨hr, -, -, -⟩ := generateSchedule_ok hok
  subst hr
  exact pairLoop_distinct _ _ ((shuffle_perm_aux draw _).nodup_iff.mpr hnd)

/-- Witness of C7, amended: four distinct names and two jobs. -/
theorem distinct_names_distinct_pair_witness :
    (generateSchedule (js "Alice Bob Carol Dave") (js "Kitchen Bathroom") firstDraw =
        .ok ⟨[js "Bob", js "Carol", js "Dave", js "Alice"],
          [⟨js "Kitchen", js "Bob", js "Carol"⟩, ⟨js "Bathroom", js "Dave", js "Alice"⟩],
          []⟩ ∧
      (tokenizeEntry (js "Alice Bob Carol Dave")).Nodup) ∧
      ∀ a ∈ [Assignment.mk (js "Kitchen") (js "Bob") (js "Carol"),
          Assignment.mk (js "Bathroom") (js "Dave") (js "Alice")],
        a.person1 ≠ a.person2 :=
  ⟨⟨by rfl, by decide⟩,
    distinct_names_distinct_pair (js "Alice Bob Carol Dave") (js "Kitchen Bathroom")
      firstDraw _ (by rfl) (by decide)⟩

/-- C8, as stated, fails: the text `a<TAB>b` is one token, which contains a
tab, whereas its maximal runs of non-whitespace characters are `a` and `b`. -/
theorem tab_stays_inside_token :
    tokenizeEntry [0x61, 0x09, 0x62] = [[0x61, 0x09, 0x62]] ∧
      tokenizeLine [0x61, 0x09, 0x62] = [[0x61, 0x09, 0x62]] ∧
      maximalRuns specWhitespace [0x61, 0x09, 0x62] = [[0x61], [0x62]] ∧
      ∃ t ∈ tokenizeEntry [0x61, 0x09, 0x62], ∃ u ∈ t, specWhitespace u = true :=
  ⟨by decide, by decide, by decide, [0x61, 0x09, 0x62], by decide, 0x09, by decide, by decide⟩

/-- C8, amended. Tokenization trims the text and splits it on the space
character only, dropping empty tokens: the token list is exactly the sequence
of maximal runs of non-space code units of the trimmed text, so every token is
non-empty and contains no space, no code unit other than the spaces is lost,
and the direct-entry and file-upload paths yield the same tokens for the same
line of text: a file whose first two non-blank lines pass validation sets the
names and the jobs to the tokens of these two lines. -/
theorem tokens_are_space_runs (text : JSString) :
    tokenizeEntry text = maximalRuns (fun u => u == SPACE) (trim text) ∧
      (∀ t ∈ tokenizeEntry text, t ≠ [] ∧ SPACE ∉ t) ∧
      (tokenizeEntry text).flatten = (trim text).filter (fun u => !(u == SPACE)) ∧
      tokenizeLine text = tokenizeEntry text ∧
      ∀ (content line0 line1 : JSString) (rest : List JSString) (fields : Lists),
        (split LF content).filter (fun line => truthy (trim line)) = line0 :: line1 :: rest →
        validateInputs (tokenizeEntry line0) (tokenizeEntry line1) = .ok () →
        (parseFileContent content fields).1 = ⟨tokenizeEntry line0, tokenizeEntry line1⟩ := by
  refine ⟨filter_split_eq_runs SPACE (trim text), ?_, ?_, rfl, ?_⟩
  rotate_left 2
  · intro content line0 line1 rest fields hlines hv
    have hv' : validateInputs (tokenizeLine line0) (tokenizeLine line1) = .ok () := hv
    simp only [parseFileContent, hlines, hv']
    rfl
  · intro t ht
    simp only [tokenizeEntry, List.mem_filter] at ht
    refine ⟨?_, split_no_sep SPACE (trim text) t ht.1⟩
    intro h0
    simp [h0, truthy] at ht
  · simp only [tokenizeEntry]
    rw [filter_truthy_flatten, split_flatten]

/-- C9. When `jobs.length * 2 <= names.length`, the assignments follow the job
order and consume the shuffled names front to back: the assignment of index
`i` has the job `jobs[i]`, `person1` at index `2 * i` and `person2` at index
`2 * i + 1` of the shuffled order, and the leftover list is the shuffled order
from index `2 * jobs.length` on. -/
theorem assign_follows_job_order (names jobs : List JSString) (draw : Draw)
    (h : jobs.length * 2 ≤ names.length) :
    (assign names jobs draw).shuffledOrder = shuffle draw names ∧
      (∀ (i : Nat) (hi : i < jobs.length), ∃ first second,
        (assign names jobs draw).shuffledOrder[2 * i]? = some first ∧
        (assign names jobs draw).shuffledOrder[2 * i + 1]? = some second ∧
        (assign names jobs draw).assignments[i]? = some ⟨jobs[i], first, second⟩) ∧
      (assign names jobs draw).leftover =
        (assign names jobs draw).shuffledOrder.drop (2 * jobs.length) := by
  have hlen : (shuffle draw names).length = names.length :=
    (shuffle_perm_aux draw names).length_eq
  have hle : jobs.length * 2 ≤ (shuffle draw names).length := by omega
  exact ⟨rfl, pairLoop_index jobs (shuffle draw names) hle,
    (pairLoop_enough jobs (shuffle draw names) hle).2⟩

/-- Witness of C9: five names and two jobs. -/
theorem assign_follows_job_order_witness :
    [js "Kitchen", js "Bath"].length * 2 ≤
        [js "Ann", js "Ben", js "Cid", js "Dan", js "Eve"].length ∧
      ((assign [js "Ann", js "Ben", js "Cid", js "Dan", js "Eve"]
          [js "Kitchen", js "Bath"] firstDraw).shuffledOrder =
        shuffle firstDraw [js "Ann", js "Ben", js "Cid", js "Dan", js "Eve"] ∧
      (∀ (i : Nat) (hi : i < [js "Kitchen", js "Bath"].length), ∃ first second,
        (assign [js "Ann", js "Ben", js "Cid", js "Dan", js "Eve"]
          [js "Kitchen", js "Bath"] firstDraw).shuffledOrder[2 * i]? = some first ∧
        (assign [js "Ann", js "Ben", js "Cid", js "Dan", js "Eve"]
          [js "Kitchen", js "Bath"] firstDraw).shuffledOrder[2 * i + 1]? = some second ∧
        (assign [js "Ann", js "Ben", js "Cid", js "Dan", js "Eve"]
          [js "Kitchen", js "Bath"] firstDraw).assignments[i]? =
            some ⟨[js "Kitchen", js "Bath"][i], first, second⟩) ∧
      (assign [js "Ann", js "Ben", js "Cid", js "Dan", js "Eve"]
          [js "Kitchen", js "Bath"] firstDraw).leftover =
        (assign [js "Ann", js "Ben", js "Cid", js "Dan", js "Eve"]
          [js "Kitchen", js "Bath"] firstDraw).shuffledOrder.drop
            (2 * [js "Kitchen", js "Bath"].length)) :=
  ⟨by decide, assign_follows_job_order [js "Ann", js "Ben", js "Cid", js "Dan", js "Eve"]
    [js "Kitchen", js "Bath"] firstDraw (by decide)⟩

/-- C10. For an array of `n` pairwise distinct elements, the map that sends the
draws of a run (one index of `[0, i]` for each `i` from `n - 1` down to `1`)
to the array `shuffle` produces is a bijection from the draw sequences onto the
permutations of the input, and there are `n!` draw sequences: every ordering is
reachable and each is produced by exactly one sequence of draws. -/
theorem shuffle_bijective {α : Type} (array : List α) (hnd : array.Nodup) :
    Function.Bijective (fun d : Draws array.length =>
        (⟨shuffle d.toDraw array, shuffle_perm_aux d.toDraw array⟩ :
          { l : List α // l.Perm array })) ∧
      Fintype.card (Draws array.length) = array.length.factorial := by
  refine ⟨⟨?_, ?_⟩, card_draws array.length⟩
  · intro d₁ d₂ heq
    exact shuffle_draws_injective array hnd d₁ d₂ (congrArg Subtype.val heq)
  · rintro ⟨l, hl⟩
    obtain ⟨d, hd⟩ := shuffle_draws_surjective array l hl
    exact ⟨d, Subtype.ext hd⟩

/-- Witness of C10: the six orderings of three distinct elements. -/
theorem shuffle_bijective_witness :
    ([1, 2, 3] : List Nat).Nodup ∧
      (Function.Bijective (fun d : Draws ([1, 2, 3] : List Nat).length =>
        (⟨shuffle d.toDraw [1, 2, 3], shuffle_perm_aux d.toDraw [1, 2, 3]⟩ :
          { l : List Nat // l.Perm [1, 2, 3] })) ∧
      Fintype.card (Draws ([1, 2, 3] : List Nat).length) =
        ([1, 2, 3] : List Nat).length.factorial) :=
  ⟨by decide, shuffle_bijective [1, 2, 3] (by decide)⟩

end CleaningSchedule

